import Mathlib

/-!
Verification of the PDF417 scanner application (`app.py`).

The development shallowly embeds the three algorithmic cores of the program:

* the enhancement-search decoder (`preprocess_image_candidates`,
  `try_decode`, `smart_scan_logic`), modelled over a free term algebra of
  images (`Img`) with the external OpenCV / zxing-cpp capabilities supplied
  as an environment (`ScanEnv`) whose detection and geometric transforms may
  raise (modelled with `Except`);
* the PDF417 parameter back-calculation (`calculate_pdf417_params`),
  modelled with exact rational arithmetic;
* the AAMVA positional field parser (`parse_aamva_data`), modelled over
  `List Char` with Python-faithful primitives (`find`, `split`, stable
  sorting, dict insertion).
-/

/-! ## Definitions -/

/-- Symbology format tags reported by the external barcode detection
capability (zxing-cpp).  Only a representative subset is needed. -/
inductive BarcodeFormat where
  | PDF417
  | QRCode
  | DataMatrix
  | Aztec
  | Code128
  | EAN13
deriving DecidableEq, Repr

/-- A detection result: format tag plus payload (raw byte values and the
text form). -/
structure DecodedBarcode where
  format : BarcodeFormat
  bytes : List Nat
  text : String
deriving DecidableEq, Repr

/-- Images as a free term algebra over the transform primitives the program
applies.  The external transforms are black boxes; the program only ever
composes them, so a derived image is identified with the term that built
it.  `clahe` records the clip limit and tile grid, `filter2D` the 3×3
kernel, `resize` the two scale factors, exactly as passed in `app.py`. -/
inductive Img where
  | orig : Img
  | cvtGray : Img → Img
  | clahe (clipLimit : ℚ) (tileGrid : Nat × Nat) : Img → Img
  | filter2D (kernel : List (List Int)) : Img → Img
  | otsuThreshold : Img → Img
  | rotate90CW : Img → Img
  | resize (fx fy : ℚ) : Img → Img
deriving DecidableEq, Repr

/-- The fixed sharpening kernel `np.array([[0,-1,0],[-1,5,-1],[0,-1,0]])`. -/
def sharpen_kernel : List (List Int) := [[0, -1, 0], [-1, 5, -1], [0, -1, 0]]

/-- `preprocess_image_candidates` from `app.py`.  `isColor` models the
Python test `len(img.shape) == 3` (a 3-channel input); for a single-channel
input the grayscale stage is the input itself.  The CLAHE stage feeds both
the sharpening and the Otsu binarization stages. -/
def preprocess_image_candidates (isColor : Bool) : List (String × Img) :=
  let img := Img.orig
  let gray := if isColor then Img.cvtGray img else img
  let enhanced := Img.clahe 2 (8, 8) gray
  let sharpened := Img.filter2D sharpen_kernel enhanced
  let binary := Img.otsuThreshold enhanced
  [("原图", img), ("灰度", gray), ("CLAHE", enhanced), ("锐化", sharpened),
   ("二值(OTSU)", binary)]

/-- Environment supplying the external capabilities used by the decoder:
`read_barcodes` is the zxing-cpp detection call (it may raise, modelled as
`Except.error`), and the two geometric transforms may raise on a given
image (`rotateFails` / `resizeFails`), in which case the `cv2` call throws
instead of producing the transformed image. -/
structure ScanEnv where
  read_barcodes : Img → Except Unit (List DecodedBarcode)
  rotateFails : Img → Bool
  resizeFails : Img → Bool

/-- `try_decode` from `app.py`: call the detection capability (absorbing
any exception) and return the first result whose format is PDF417. -/
def try_decode (env : ScanEnv) (image : Img) : Option DecodedBarcode :=
  match env.read_barcodes image with
  | .error _ => none
  | .ok results => results.find? (fun r => r.format == BarcodeFormat.PDF417)

/-- The `transforms` list built inside `smart_scan_logic`: identity,
90°-clockwise rotation, 1.5× uniform upscale, in that order. -/
def transforms (env : ScanEnv) : List (String × (Img → Except Unit Img)) :=
  [("正常", fun x => Except.ok x),
   ("旋转90°", fun x =>
      if env.rotateFails x then Except.error () else Except.ok (Img.rotate90CW x)),
   ("放大1.5x", fun x =>
      if env.resizeFails x then Except.error () else Except.ok (Img.resize 1.5 1.5 x))]

/-- One `(base candidate, geometric variant)` attempt of the inner loop of
`smart_scan_logic`: apply the transform and, if it does not raise, run
`try_decode`; a raised exception is absorbed (the `try/except ... continue`
in the loop body). -/
def attempt (env : ScanEnv) (img_candidate : Img)
    (trans_func : Img → Except Unit Img) : Option DecodedBarcode :=
  match trans_func img_candidate with
  | .error _ => none
  | .ok processed => try_decode env processed

/-- `smart_scan_logic` from `app.py` (progress-bar UI calls dropped): a
nested short-circuiting search, outer loop over the base candidates, inner
loop over the geometric variants, stopping at the first successful PDF417
detection. -/
def smart_scan_logic (env : ScanEnv) (isColor : Bool) : Option DecodedBarcode :=
  (preprocess_image_candidates isColor).findSome? (fun mc =>
    (transforms env).findSome? (fun tt => attempt env mc.2 tt.2))

/-- The `(base candidate, geometric variant)` pairs in the nested order in
which `smart_scan_logic` visits them. -/
def pair_list (env : ScanEnv) (isColor : Bool) :
    List (Img × (Img → Except Unit Img)) :=
  ((preprocess_image_candidates isColor).map (fun mc =>
    (transforms env).map (fun tt => (mc.2, tt.2)))).flatten

/-- The outcome of every `(base candidate, geometric variant)` attempt, in
the nested visiting order. -/
def attemptList (env : ScanEnv) (isColor : Bool) : List (Option DecodedBarcode) :=
  (pair_list env isColor).map (fun pr => attempt env pr.1 pr.2)

/-- Environment in which detection succeeds (with a PDF417 result) exactly
on the grayscale base candidate and never raises. -/
def env_gray_hit : ScanEnv where
  read_barcodes := fun i =>
    if i = Img.cvtGray Img.orig then
      Except.ok [⟨BarcodeFormat.PDF417, [1, 2], "hit"⟩]
    else Except.ok []
  rotateFails := fun _ => false
  resizeFails := fun _ => false

/-- Environment in which detection always reports a QR code and nothing
else. -/
def env_qr_only : ScanEnv where
  read_barcodes := fun _ => Except.ok [⟨BarcodeFormat.QRCode, [3], "qr"⟩]
  rotateFails := fun _ => false
  resizeFails := fun _ => false

/-- Environment in which every rotation raises and detection never finds
anything. -/
def env_rot_fail : ScanEnv where
  read_barcodes := fun _ => Except.ok []
  rotateFails := fun _ => true
  resizeFails := fun _ => false

/-- One row of the parameter table produced by `calculate_pdf417_params`:
column count, derived row count, estimated width and height in modules, the
aspect ratio and the advisory note.  Arithmetic is exact (rational); the
source's one-decimal display formatting of the ratio is presentation. -/
structure ParameterRow where
  cols : Nat
  rows : Int
  width_units : Int
  height_units : Int
  ratio : ℚ
  note : String
deriving DecidableEq, Repr

/-- Exact ceiling of the quotient `a / b` for a nonnegative divisor,
written with Euclidean integer division so that it evaluates inside the
kernel; `ceil_div_int_eq` identifies it with the mathematical ceiling of
the rational quotient. -/
def ceil_div_int (a b : Int) : Int := -((-a) / b)

/-- The loop body of `calculate_pdf417_params` for one candidate column
count: derive the row count `ceil(total_cw / cols)`, discard it outside the
3..90 format limits, otherwise emit the row with its advisory note
(column-keyed part first, then the ratio-keyed part appended).  The ratio
`width_units / height_units` is built with `Rat.divInt` (equal to the
rational division, see `Rat.divInt_eq_div`) and the `2.5` threshold is
written `mkRat 5 2` so that every value evaluates inside the kernel. -/
def pdf417_row (total_cw : Int) (cols : Nat) : Option ParameterRow :=
  let rows : Int := ceil_div_int total_cw (cols : Int)
  if rows < 3 ∨ rows > 90 then none
  else
    let width_units : Int := ((cols : Int) + 4) * 17
    let height_units : Int := rows * 3
    let ratio : ℚ := Rat.divInt width_units height_units
    let note : String :=
      (if cols = 17 then "⭐ AAMVA 标准"
       else if 11 ≤ cols ∧ cols ≤ 13 then "🔹 窄版 (NY/CA风格)" else "") ++
      (if 3 ≤ ratio ∧ ratio ≤ 5 then " | 完美比例"
       else if ratio > 6 then " | 扁长条码"
       else if ratio < mkRat 5 2 then " | 正方条码" else "")
    some ⟨cols, rows, width_units, height_units, ratio, note⟩

/-- `calculate_pdf417_params` from `app.py`: for a payload byte length,
estimate the data codeword count as `ceil(len / 1.8)` (computed exactly as
`ceil(5 len / 9)`, see `ceil_div_int_five_nine`), add the fixed 64-codeword
error-correction overhead (security level 5), and emit one row per
surviving column count in 9..20. -/
def calculate_pdf417_params (byte_len : Int) : List ParameterRow :=
  if byte_len ≤ 0 then []
  else
    let estimated_data_cw : Int := ceil_div_int (5 * byte_len) 9
    let ecc_cw : Int := 64
    (List.range' 9 12).filterMap (pdf417_row (estimated_data_cw + ecc_cw))

/-- The data part of a parameter row (everything except the advisory
note). -/
def row_core (r : ParameterRow) : Nat × Int × Int × Int × ℚ :=
  (r.cols, r.rows, r.width_units, r.height_units, r.ratio)

/-- Modelled from the spec wording of claim C6 (reference definition): a
row for column count `c` is emitted if and only if `3 ≤ rows ≤ 90` where
`rows = ceil(T / c)`, with width `(c + 4) * 17`, height `rows * 3` and
ratio `width / height`. -/
def pdf417_row_spec (T : Int) (c : Nat) : Option (Nat × Int × Int × Int × ℚ) :=
  let rows : Int := ⌈(T : ℚ) / (c : ℚ)⌉
  if 3 ≤ rows ∧ rows ≤ 90 then
    some (c, rows, ((c : Int) + 4) * 17, rows * 3,
      ((((c : Int) + 4) * 17 : Int) : ℚ) / (((rows * 3 : Int) : ℚ)))
  else none

/-- Modelled from the spec wording of claim C6 (reference definition): for
`L ≤ 0` the table is empty; otherwise `T = ceil(L / 1.8) + 64` and the
table has one entry per column count `c` in the closed range 9..20 whose
row count lies in 3..90. -/
def pdf417_params_spec (byte_len : Int) : List (Nat × Int × Int × Int × ℚ) :=
  if byte_len ≤ 0 then []
  else (List.range' 9 12).filterMap (pdf417_row_spec (⌈(byte_len : ℚ) / 1.8⌉ + 64))

/-- The advisory-note table actually implemented by the code: `cols = 17`
gives the standard annotation, `11 ≤ cols ≤ 13` the narrow annotation,
every other column count no column-keyed annotation; the ratio appends
well-proportioned for 3..5, elongated above 6, squared below 2.5. -/
def note_spec (cols : Nat) (ratio : ℚ) : String :=
  (if cols = 17 then "⭐ AAMVA 标准"
   else if 11 ≤ cols ∧ cols ≤ 13 then "🔹 窄版 (NY/CA风格)" else "") ++
  (if 3 ≤ ratio ∧ ratio ≤ 5 then " | 完美比例"
   else if ratio > 6 then " | 扁长条码"
   else if ratio < mkRat 5 2 then " | 正方条码" else "")

/-- The field-code table `fields_map` from `parse_aamva_data`, in source
order. -/
def fields_map : List (String × String) := [
  ("DCS", "姓氏 (Last Name)"),
  ("DAC", "名 (First Name)"),
  ("DAD", "中间名 (Middle Name)"),
  ("DBB", "出生日期 (DOB)"),
  ("DBA", "到期日期 (Expiry Date)"),
  ("DBD", "签发日期 (Issue Date)"),
  ("DAQ", "驾照/证件号码 (License No.)"),
  ("DCF", "档案编号/鉴别码 (DD)"),
  ("DCK", "库存控制号 (ICN)"),
  ("DCG", "国籍 (Nationality)"),
  ("DBC", "性别 (Gender Code)"),
  ("DAU", "身高 (Height)"),
  ("DAW", "体重 (Weight)"),
  ("DAY", "眼睛颜色 (Eye Color)"),
  ("DAZ", "头发颜色 (Hair Color)"),
  ("DAG", "地址 (Street)"),
  ("DAI", "城市 (City)"),
  ("DAJ", "州/省 (State)"),
  ("DAK", "邮编 (ZIP)"),
  ("DCA", "驾照级别 (CLASS)"),
  ("DCB", "驾照限制 (REST)"),
  ("DCD", "驾照背书 (END)"),
  ("DDB", "该版面驾照的发行日期 (REV)"),
  ("DDL", "服役军人"),
  ("DDK", "器官捐献者"),
  ("ZFJ", " 审计信息(Audit info)"),
  ("ZFC", "安全驾驶 (SAFE DRIVER)")]

/-- Python `str.split(sep)` on character lists (keeps empty segments,
`"" -> [""]`). -/
def splitSep (sep : Char) : List Char → List (List Char)
  | [] => [[]]
  | c :: rest =>
    match splitSep sep rest with
    | [] => [[]]
    | s :: ss => if c = sep then [] :: s :: ss else (c :: s) :: ss

/-- Scanning helper for Python `str.find`: least match offset of `pat` in
`hay`, with the running index starting at `i`. -/
def find_sub_from (pat : List Char) : List Char → Nat → Option Nat
  | hay, i =>
    if pat.isPrefixOf hay then some i
    else
      match hay with
      | [] => none
      | _ :: t => find_sub_from pat t (i + 1)

/-- Python `hay.find(pat, start)`: the least index `j ≥ start` at which
`pat` occurs in `hay`, or `none` for Python's `-1`. -/
def py_find (hay pat : List Char) (start : Nat) : Option Nat :=
  find_sub_from pat (hay.drop start) start

/-- The body of the `while True` find loop of `parse_aamva_data`, with an
explicit iteration budget so that the recursion is structural (and hence
evaluates inside the kernel): repeatedly `find` from one past the previous
match.  Each iteration moves the start position forward, so a budget of
`content.length + 1 - start` never runs out (see `mem_find_occ_fuel`). -/
def find_occ_fuel (content code : List Char) : Nat → Nat → List Nat
  | 0, _ => []
  | fuel + 1, start =>
    match py_find content code start with
    | none => []
    | some p => p :: find_occ_fuel content code fuel (p + 1)

/-- The `while True` find loop of `parse_aamva_data`, collecting every
occurrence of `code` in `content`: all match positions from `start` on, in
ascending order. -/
def find_occurrences (content code : List Char) (start : Nat) : List Nat :=
  find_occ_fuel content code (content.length + 1 - start) start

/-- `fields_map.get(code, code)`: look the code up in the table, falling
back to the code itself. -/
def field_desc (code : String) : String :=
  match fields_map.find? (fun p => p.1 == code) with
  | some p => p.2
  | none => code

/-- Stable insertion for the longest-first ordering of codes: an element
already in the list stays before the inserted one exactly when it is
strictly longer. -/
def insert_by_len (x : String) : List String → List String
  | [] => [x]
  | y :: ys => if x.length < y.length then y :: insert_by_len x ys else x :: y :: ys

/-- `sorted(fields_map.keys(), key=len, reverse=True)`: stable descending
sort by code length. -/
def sort_by_len_desc : List String → List String
  | [] => []
  | x :: xs => insert_by_len x (sort_by_len_desc xs)

/-- The code scan order of `parse_aamva_data`: the field codes sorted
longest-first (stably). -/
def sorted_codes : List String := sort_by_len_desc (fields_map.map Prod.fst)

/-- Stable insertion for the ascending sort by start position. -/
def insert_by_pos (x : String × Nat) : List (String × Nat) → List (String × Nat)
  | [] => [x]
  | y :: ys => if y.2 < x.2 then y :: insert_by_pos x ys else x :: y :: ys

/-- `field_positions.sort(key=lambda x: x['start_pos'])`: stable ascending
sort by start position. -/
def sort_by_pos : List (String × Nat) → List (String × Nat)
  | [] => []
  | x :: xs => insert_by_pos x (sort_by_pos xs)

/-- The collection loop of `parse_aamva_data`: for each code in scan order,
every occurrence position in the field-data region, as (code, position)
records. -/
def field_positions (content : List Char) : List (String × Nat) :=
  (sorted_codes.map (fun code =>
    (find_occurrences content code.data 0).map (fun p => (code, p)))).flatten

/-- The (code, position) records sorted by ascending start position. -/
def sorted_positions (content : List Char) : List (String × Nat) :=
  sort_by_pos (field_positions content)

/-- Python `str.strip()` whitespace, restricted to Latin-1 characters. -/
def isPyWS (c : Char) : Bool :=
  c = ' ' || c = '\t' || c = '\n' || c = '\x0b' || c = '\x0c' || c = '\r' ||
  c = '\x1c' || c = '\x1d' || c = '\x1e' || c = '\x1f' || c = '\x85' || c = '\xa0'

/-- `value.replace('\x0a', '').replace('\x0d', '').strip()`: drop every
line feed and carriage return, then strip surrounding whitespace. -/
def clean_value (s : List Char) : String :=
  let noLF := s.filter (fun c => !(c = '\n' || c = '\r'))
  ⟨((noLF.dropWhile isPyWS).reverse.dropWhile isPyWS).reverse⟩

/-- The per-segment test of the main-segment loop: if the segment mentions
"DL" or "ID" and contains 'Z' at a non-final position, the field-data
region is everything strictly after the first 'Z'; otherwise the loop
moves on to the next segment. -/
def segment_region (segment : List Char) : Option (List Char) :=
  let dl_start_index := py_find segment "DL".data 0
  let id_start_index := py_find segment "ID".data 0
  if dl_start_index.isSome || id_start_index.isSome then
    match py_find segment ['Z'] 0 with
    | some z_pos =>
      if z_pos + 1 < segment.length then some (segment.drop (z_pos + 1)) else none
    | none => none
  else none

/-- Lines 239–251 of `app.py`: split on the record separator and return the
field-data region of the first segment the loop accepts. -/
def main_data_content (data_str : List Char) : Option (List Char) :=
  (splitSep '\x1e' data_str).findSome? segment_region

/-- The value-extraction loop (steps 4–5 of `parse_aamva_data`): for each
sorted (code, position) record, the value runs from just past the code to
the next record's start position (or the end of the region), cleaned. -/
def extract_entries (content : List Char) : List (String × Nat) → List (String × String)
  | [] => []
  | cur :: rest =>
    let value_start := cur.2 + cur.1.length
    let value_end :=
      match rest with
      | nxt :: _ => nxt.2
      | [] => content.length
    let value := clean_value ((content.take value_end).drop value_start)
    (field_desc cur.1, value) :: extract_entries content rest

/-- Python dict assignment `d[k] = v` on an insertion-ordered association
list: overwrite in place when the key is present, append otherwise. -/
def dictInsert : List (String × String) → String → String → List (String × String)
  | [], k, v => [(k, v)]
  | p :: d, k, v => if p.1 == k then (k, v) :: d else p :: dictInsert d k v

/-- Python dict lookup `d.get(k)`. -/
def dictGet (k : String) (d : List (String × String)) : Option String :=
  (d.find? (fun p => p.1 == k)).map Prod.snd

/-- Error message for a missing / unusable DL-ID main data segment. -/
def structural_error_msg : String := "未找到 DL/ID 主数据段的起始标记（Z标记缺失或数据不完整）。"

/-- Error message for a region in which no known field code occurs. -/
def extraction_error_msg : String := "已找到主段，但未能识别任何有效的 AAMVA 字段代码。"

/-- Error message for an empty extracted record (unreachable once a field
position exists, kept for fidelity). -/
def empty_fields_msg : String := "已找到主段，但未能提取任何有效字段。"

/-- `parse_aamva_data` on the already-decoded text.  The Python dict is
modelled as an insertion-ordered association list; the error returns are
the singleton dict with key "Error", exactly as in the source. -/
def parse_aamva_chars (data_str : List Char) : List (String × String) :=
  match main_data_content data_str with
  | none => [("Error", structural_error_msg)]
  | some content =>
    let fp := field_positions content
    if fp.isEmpty then [("Error", extraction_error_msg)]
    else
      let ps := sort_by_pos fp
      let parsed := (extract_entries content ps).foldl
        (fun d e => dictInsert d e.1 e.2) []
      if parsed.isEmpty then [("Error", empty_fields_msg)]
      else parsed

/-- `raw_bytes.decode('latin-1', errors='ignore')`: every byte value maps
to the Unicode code point of the same value (total; the reduction modulo
256 only makes the function total on all of `Nat`). -/
def latin1_decode (raw_bytes : List Nat) : List Char :=
  raw_bytes.map (fun b => Char.ofNat (b % 256))

/-- `parse_aamva_data` from `app.py` on raw payload bytes. -/
def parse_aamva_data (raw_bytes : List Nat) : List (String × String) :=
  parse_aamva_chars (latin1_decode raw_bytes)

/-- `parse_aamva_data` applied to the Latin-1 text form of a payload. -/
def parse_aamva_str (s : String) : List (String × String) :=
  parse_aamva_chars s.data

/-- The end of the value slice for the sorted record at index `i`: the next
record's start position, or the end of the region for the last record. -/
def next_boundary (content : List Char) (ps : List (String × Nat)) (i : Nat) : Nat :=
  match ps[i + 1]? with
  | some nxt => nxt.2
  | none => content.length

/-! ## Lemmas and theorems -/

lemma findSome?_map_eq {α β γ : Type _} (f : α → β) (g : β → Option γ) (l : List α) :
    (l.map f).findSome? g = l.findSome? (fun a => g (f a)) := by
  induction l with
  | nil => rfl
  | cons a t ih =>
    simp only [List.map_cons, List.findSome?_cons]
    cases g (f a) <;> simp [ih]

lemma findSome?_flatten_eq {α β : Type _} (L : List (List α)) (g : α → Option β) :
    L.flatten.findSome? g = L.findSome? (fun l => l.findSome? g) := by
  induction L with
  | nil => rfl
  | cons l L ih =>
    simp only [List.flatten_cons, List.findSome?_append, List.findSome?_cons]
    cases h : l.findSome? g <;> simp [ih]

/-- The nested search of `smart_scan_logic` equals the first successful
outcome in the flattened attempt list. -/
lemma smart_scan_eq_findSome (env : ScanEnv) (isColor : Bool) :
    smart_scan_logic env isColor = (attemptList env isColor).findSome? id := by
  unfold smart_scan_logic attemptList pair_list
  simp only [findSome?_map_eq, findSome?_flatten_eq, id_eq]

lemma findSome?_id_of_first {α : Type _} (l : List (Option α)) (i : Nat) (a : α)
    (hi : l[i]? = some (some a)) (hmin : ∀ k, k < i → l[k]? = some none) :
    l.findSome? id = some a := by
  induction l generalizing i with
  | nil => simp at hi
  | cons x t ih =>
    cases i with
    | zero =>
      simp only [List.getElem?_cons_zero, Option.some.injEq] at hi
      subst hi
      rfl
    | succ n =>
      have hx : x = none := by
        have := hmin 0 (Nat.succ_pos n)
        simpa using this
      subst hx
      simp only [List.getElem?_cons_succ] at hi
      have : t.findSome? id = some a := by
        refine ih n hi ?_
        intro k hk
        have := hmin (k + 1) (Nat.succ_lt_succ hk)
        simpa using this
      simpa [List.findSome?_cons]

lemma findSome?_id_eraseIdx {α : Type _} (l : List (Option α)) (i : Nat)
    (hi : l[i]? = some none) :
    l.findSome? id = (l.eraseIdx i).findSome? id := by
  induction l generalizing i with
  | nil => simp at hi
  | cons x t ih =>
    cases i with
    | zero =>
      simp only [List.getElem?_cons_zero, Option.some.injEq] at hi
      subst hi
      simp [List.findSome?_cons, List.eraseIdx]
    | succ n =>
      simp only [List.getElem?_cons_succ] at hi
      have := ih n hi
      cases x with
      | none => simpa [List.findSome?_cons, List.eraseIdx]
      | some b => simp [List.findSome?_cons, List.eraseIdx, this]

lemma findSome?_id_mem {α : Type _} (l : List (Option α)) (a : α)
    (h : l.findSome? id = some a) : some a ∈ l := by
  induction l with
  | nil => simp at h
  | cons x t ih =>
    cases hx : x with
    | none =>
      subst hx
      simp only [List.findSome?_cons] at h
      exact List.mem_cons_of_mem _ (ih h)
    | some b =>
      subst hx
      simp only [List.findSome?_cons] at h
      cases h
      exact List.mem_cons_self _ _

/-- Claim C1: the Decoder attempts detection on (base candidate, geometric
variant) pairs in nested order (outer: base candidates in generated order;
inner: identity, 90°-clockwise rotation, 1.5× upscale) and returns the
result of the first pair whose detection succeeds with a PDF417 barcode:
the returned value is the first non-`none` entry of the attempt list, and
if attempt `i` succeeds while all earlier attempts fail, attempt `i`'s
result is returned (so an earlier succeeding pair always wins over a later
one). -/
theorem decoder_first_success_order (env : ScanEnv) (isColor : Bool) :
    smart_scan_logic env isColor = (attemptList env isColor).findSome? id ∧
    ∀ (i : Nat) (a : DecodedBarcode), (attemptList env isColor)[i]? = some (some a) →
      (∀ k : Nat, k < i → (attemptList env isColor)[k]? = some none) →
      smart_scan_logic env isColor = some a := by
  refine ⟨smart_scan_eq_findSome env isColor, ?_⟩
  intro i a hi hmin
  rw [smart_scan_eq_findSome]
  exact findSome?_id_of_first _ i a hi hmin

/-- Witness for C1: in `env_gray_hit` the four earlier attempts fail and
the fifth-visited pair is a hypothetical later success; the first success
(grayscale candidate, identity variant, index 3) is returned. -/
theorem decoder_first_success_order_witness :
    smart_scan_logic env_gray_hit true = some ⟨BarcodeFormat.PDF417, [1, 2], "hit"⟩ := by
  refine (decoder_first_success_order env_gray_hit true).2 3 _ (by decide) ?_
  intro k hk
  interval_cases k <;> decide

/-- Claim C4: the Decoder's result is either `none` (NotFound) or a
detection whose symbology format tag is PDF417 — a result with any other
tag is never returned — and `none` is returned exactly when every (base
candidate, geometric variant) attempt yields no PDF417 detection. -/
theorem decoder_pdf417_only (env : ScanEnv) (isColor : Bool) :
    (∀ r : DecodedBarcode, smart_scan_logic env isColor = some r →
      r.format = BarcodeFormat.PDF417) ∧
    (smart_scan_logic env isColor = none ↔
      ∀ o ∈ attemptList env isColor, o = none) := by
  constructor
  · intro r hr
    rw [smart_scan_eq_findSome] at hr
    have hmem : some r ∈ attemptList env isColor := findSome?_id_mem _ _ hr
    rcases List.mem_map.1 hmem with ⟨pr, _, hpr⟩
    rcases pr with ⟨img, tf⟩
    simp only [attempt] at hpr
    cases h1 : tf img with
    | error e => rw [h1] at hpr; simp at hpr
    | ok processed =>
      rw [h1] at hpr
      simp only [try_decode] at hpr
      cases h2 : env.read_barcodes processed with
      | error e => rw [h2] at hpr; simp at hpr
      | ok results =>
        rw [h2] at hpr
        simp only [] at hpr
        have := List.find?_some hpr
        simpa using this
  · rw [smart_scan_eq_findSome]
    simp [List.findSome?_eq_none_iff]

/-- Witness for C4: in an environment where detection always reports a QR
code (and nothing else), the Decoder returns NotFound. -/
theorem decoder_pdf417_only_witness :
    smart_scan_logic env_qr_only true = none :=
  (decoder_pdf417_only env_qr_only true).2.mpr (by decide)

/-- Claim C7: if the transform of the `i`-th (base candidate, geometric
variant) pair raises, or the detection capability raises on its output,
that attempt's outcome is `none` (the exception is absorbed) and the search
result is the first success among the remaining pairs in order — the
exception never propagates (the model's search is a total function). -/
theorem decoder_exception_absorbed (env : ScanEnv) (isColor : Bool) (i : Nat)
    (img : Img) (tf : Img → Except Unit Img)
    (hp : (pair_list env isColor)[i]? = some (img, tf))
    (hraise : tf img = Except.error () ∨
      ∃ p : Img, tf img = Except.ok p ∧ env.read_barcodes p = Except.error ()) :
    (attemptList env isColor)[i]? = some none ∧
    smart_scan_logic env isColor =
      ((attemptList env isColor).eraseIdx i).findSome? id := by
  have hnone : attempt env img tf = none := by
    rcases hraise with h | ⟨p, h1, h2⟩
    · simp [attempt, h]
    · simp [attempt, h1, try_decode, h2]
  have hai : (attemptList env isColor)[i]? = some none := by
    unfold attemptList
    rw [List.getElem?_map, hp]
    simp [hnone]
  exact ⟨hai, by rw [smart_scan_eq_findSome]; exact findSome?_id_eraseIdx _ i hai⟩

/-- Witness for C7: in `env_rot_fail` the rotation of the original image
raises; attempt 1 is skipped and the search continues over the remaining
attempts. -/
theorem decoder_exception_absorbed_witness :
    (attemptList env_rot_fail true)[1]? = some none ∧
    smart_scan_logic env_rot_fail true =
      ((attemptList env_rot_fail true).eraseIdx 1).findSome? id :=
  decoder_exception_absorbed env_rot_fail true 1 Img.orig
    (fun x => if env_rot_fail.rotateFails x then Except.error ()
              else Except.ok (Img.rotate90CW x))
    (by rfl) (Or.inl (by rfl))

/-- Claim C3: for a 3-channel input the base-candidate list is exactly the
original image, its grayscale conversion, CLAHE (clip limit 2.0, 8×8 tile
grid) of the grayscale, sharpening with the fixed 3×3 kernel applied to the
CLAHE output, and Otsu binarization applied to the CLAHE output (not to the
sharpened image); each base candidate is paired in `smart_scan_logic` with
the geometric variants identity, 90°-clockwise rotation and 1.5× uniform
upscale, in that order.  (For a single-channel input the grayscale stage is
the input itself and the rest is unchanged.) -/
theorem decoder_candidate_battery (env : ScanEnv) :
    preprocess_image_candidates true =
      [("原图", Img.orig),
       ("灰度", Img.cvtGray Img.orig),
       ("CLAHE", Img.clahe 2 (8, 8) (Img.cvtGray Img.orig)),
       ("锐化", Img.filter2D [[0, -1, 0], [-1, 5, -1], [0, -1, 0]]
          (Img.clahe 2 (8, 8) (Img.cvtGray Img.orig))),
       ("二值(OTSU)", Img.otsuThreshold (Img.clahe 2 (8, 8) (Img.cvtGray Img.orig)))] ∧
    ∀ x : Img, (transforms env).map (fun tt => (tt.1, tt.2 x)) =
      [("正常", Except.ok x),
       ("旋转90°", if env.rotateFails x then Except.error ()
                   else Except.ok (Img.rotate90CW x)),
       ("放大1.5x", if env.resizeFails x then Except.error ()
                    else Except.ok (Img.resize 1.5 1.5 x))] :=
  ⟨rfl, fun _ => rfl⟩

lemma ceil_div_int_eq (a : Int) (n : Nat) :
    ceil_div_int a (n : Int) = ⌈(a : ℚ) / (n : ℚ)⌉ := by
  have h2 : ⌊-((a : ℚ) / (n : ℚ))⌋ = (-a) / (n : ℤ) := by
    have hneg : -((a : ℚ) / ((n : ℕ) : ℚ)) = ((-a : ℤ) : ℚ) / ((n : ℕ) : ℚ) := by
      push_cast
      ring
    rw [hneg, Rat.floor_intCast_div_natCast]
  rw [Int.floor_neg] at h2
  unfold ceil_div_int
  omega

/-- `ceil(L / 1.8)` from the source, computed exactly: the quotient
`L / 1.8` equals `5 L / 9`. -/
lemma ceil_div_int_five_nine (L : Int) :
    ceil_div_int (5 * L) 9 = ⌈(L : ℚ) / 1.8⌉ := by
  have h9 : ((9 : ℕ) : ℤ) = (9 : ℤ) := by norm_num
  have h := ceil_div_int_eq (5 * L) 9
  rw [h9] at h
  rw [h]
  congr 1
  rw [show (1.8 : ℚ) = 9 / 5 by norm_num]
  push_cast
  field_simp
  ring

/-- The squared-barcode threshold written `mkRat 5 2` is the literal
`2.5`. -/
lemma mkRat_five_two : (mkRat 5 2 : ℚ) = 2.5 := by
  rw [Rat.mkRat_eq_div]
  norm_num

lemma pdf417_row_core_eq (t : Int) (c : Nat) :
    Option.map row_core (pdf417_row t c) = pdf417_row_spec t c := by
  unfold pdf417_row pdf417_row_spec
  rw [show ceil_div_int t (c : Int) = ⌈(t : ℚ) / (c : ℚ)⌉ from ceil_div_int_eq t c]
  by_cases h : (⌈(t : ℚ) / (c : ℚ)⌉ : Int) < 3 ∨ (⌈(t : ℚ) / (c : ℚ)⌉ : Int) > 90
  · rw [if_pos h,
      if_neg (show ¬(3 ≤ (⌈(t : ℚ) / (c : ℚ)⌉ : Int) ∧
        (⌈(t : ℚ) / (c : ℚ)⌉ : Int) ≤ 90) by omega)]
    rfl
  · rw [if_neg h,
      if_pos (show 3 ≤ (⌈(t : ℚ) / (c : ℚ)⌉ : Int) ∧
        (⌈(t : ℚ) / (c : ℚ)⌉ : Int) ≤ 90 by omega)]
    simp [row_core, Rat.divInt_eq_div]

lemma pdf417_row_note (t : Int) (c : Nat) (r : ParameterRow)
    (h : pdf417_row t c = some r) :
    r.note = note_spec r.cols r.ratio ∧
    r.ratio = (r.width_units : ℚ) / (r.height_units : ℚ) := by
  unfold pdf417_row at h
  by_cases hc : (ceil_div_int t (c : Int) : Int) < 3 ∨
    (ceil_div_int t (c : Int) : Int) > 90
  · rw [if_pos hc] at h
    exact absurd h (by simp)
  · rw [if_neg hc] at h
    injection h with h
    subst h
    exact ⟨rfl, (Rat.divInt_eq_div _ _)⟩

/-- Claim C6: `calculate_pdf417_params` is a pure function of the payload
byte length equal to the reference definition `pdf417_params_spec`
(modelled from the claim's wording): empty table for `L ≤ 0`, otherwise
`T = ceil(L / 1.8) + 64` and one row per column count `c` in 9..20 with
`rows = ceil(T / c)` emitted iff `3 ≤ rows ≤ 90`, width `(c + 4) * 17`,
height `rows * 3`, ratio `width / height`; for `L = 223` the table contains
the row with 17 columns and 12 rows. -/
theorem params_match_reference :
    (∀ L : Int, (calculate_pdf417_params L).map row_core = pdf417_params_spec L) ∧
    (∀ L : Int, L ≤ 0 → calculate_pdf417_params L = []) ∧
    ∃ r ∈ calculate_pdf417_params 223, r.cols = 17 ∧ r.rows = 12 := by
  refine ⟨?_, ?_, ?_⟩
  · intro L
    unfold calculate_pdf417_params pdf417_params_spec
    by_cases hL : L ≤ 0
    · simp [hL]
    · simp only [if_neg hL]
      rw [List.map_filterMap]
      simp only [pdf417_row_core_eq, ceil_div_int_five_nine]
  · intro L hL
    unfold calculate_pdf417_params
    rw [if_pos hL]
  · decide

/-- Witness for C6: the boundary case is exercised at the concrete lengths
`-5` and `0`, both yielding the empty table. -/
theorem params_match_reference_witness :
    calculate_pdf417_params (-5) = [] ∧ calculate_pdf417_params 0 = [] :=
  ⟨params_match_reference.2.1 (-5) (by decide),
   params_match_reference.2.1 0 (by decide)⟩

/-- Counterexample to claim C9: the code has no "common wide" annotation
for columns 16..18.  In the table for byte length 223 the 16-column row's
note is only the ratio-keyed elongated annotation — identical to the
19-column row's note, which the claim places outside the "common wide"
band — and the 17-column row's note is the standard annotation plus the
ratio annotation, with no wide marker either. -/
theorem params_no_common_wide_note :
    (∃ r ∈ calculate_pdf417_params 223, r.cols = 16 ∧ r.note = " | 扁长条码") ∧
    (∃ r ∈ calculate_pdf417_params 223, r.cols = 19 ∧ r.note = " | 扁长条码") ∧
    (∃ r ∈ calculate_pdf417_params 223, r.cols = 17 ∧
      r.note = "⭐ AAMVA 标准 | 扁长条码") := by
  decide

/-- Amended claim C9: every emitted row's advisory note is keyed on the
column count and the ratio exactly as implemented: `c = 17` yields the
standard note, `11 ≤ c ≤ 13` the narrow note, other column counts no
column-keyed note, and the ratio appends well-proportioned when
`3 ≤ ratio ≤ 5`, elongated when `ratio > 6`, squared when `ratio < 2.5`
(the claimed "common wide" note for 16..18 does not exist). -/
theorem params_note_keying (L : Int) (r : ParameterRow)
    (hr : r ∈ calculate_pdf417_params L) :
    r.note = note_spec r.cols r.ratio ∧
    r.ratio = (r.width_units : ℚ) / (r.height_units : ℚ) := by
  unfold calculate_pdf417_params at hr
  by_cases hL : L ≤ 0
  · rw [if_pos hL] at hr
    simp at hr
  · rw [if_neg hL] at hr
    rcases List.mem_filterMap.1 hr with ⟨c, -, hc⟩
    exact pdf417_row_note _ c r hc

/-- Witness for the amended C9: the 17-column row of the table for byte
length 223 carries exactly the note given by the implemented keying. -/
theorem params_note_keying_witness :
    ("⭐ AAMVA 标准 | 扁长条码" : String) = note_spec 17 (Rat.divInt 357 36) :=
  (params_note_keying 223
    ⟨17, 12, 357, 36, Rat.divInt 357 36, "⭐ AAMVA 标准 | 扁长条码"⟩ (by decide)).1

lemma find_sub_from_some (pat : List Char) (hay : List Char) (i j : Nat)
    (h : find_sub_from pat hay i = some j) :
    i ≤ j ∧ j - i ≤ hay.length ∧ pat.isPrefixOf (hay.drop (j - i)) = true := by
  induction hay generalizing i with
  | nil =>
    rw [find_sub_from] at h
    split at h
    · injection h with h'
      subst h'
      refine ⟨le_refl _, by simp, ?_⟩
      simpa using ‹pat.isPrefixOf ([] : List Char) = true›
    · exact absurd h (by simp)
  | cons a t ih =>
    rw [find_sub_from] at h
    split at h
    · injection h with h'
      subst h'
      refine ⟨le_refl _, by simp, ?_⟩
      simpa [Nat.sub_self] using ‹pat.isPrefixOf (a :: t) = true›
    · obtain ⟨h1, h2, h3⟩ := ih (i + 1) h
      refine ⟨by omega, by simp only [List.length_cons]; omega, ?_⟩
      have heq : (a :: t).drop (j - i) = t.drop (j - (i + 1)) := by
        have hji : j - i = (j - (i + 1)) + 1 := by omega
        rw [hji]
        simp
      rw [heq]
      exact h3

lemma find_sub_from_min (pat : List Char) (hay : List Char) (i j k : Nat)
    (h : find_sub_from pat hay i = some j) (hik : i ≤ k) (hkj : k < j) :
    pat.isPrefixOf (hay.drop (k - i)) = false := by
  induction hay generalizing i with
  | nil =>
    rw [find_sub_from] at h
    split at h
    · injection h with h'
      exfalso
      omega
    · exact absurd h (by simp)
  | cons a t ih =>
    rw [find_sub_from] at h
    split at h
    · injection h with h'
      exfalso
      omega
    · rename_i hnp
      simp only [Bool.not_eq_true] at hnp
      rcases Nat.eq_or_lt_of_le hik with rfl | hlt
      · simpa [Nat.sub_self] using hnp
      · have hrec := ih (i + 1) h (by omega)
        have heq : (a :: t).drop (k - i) = t.drop (k - (i + 1)) := by
          have hki : k - i = (k - (i + 1)) + 1 := by omega
          rw [hki]
          simp
        rw [heq]
        exact hrec

lemma find_sub_from_none (pat : List Char) (hay : List Char) (i k : Nat)
    (h : find_sub_from pat hay i = none) (hik : i ≤ k) :
    pat.isPrefixOf (hay.drop (k - i)) = false := by
  induction hay generalizing i with
  | nil =>
    rw [find_sub_from] at h
    split at h
    · exact absurd h (by simp)
    · rename_i hnp
      simp only [Bool.not_eq_true] at hnp
      simpa using hnp
  | cons a t ih =>
    rw [find_sub_from] at h
    split at h
    · exact absurd h (by simp)
    · rename_i hnp
      simp only [Bool.not_eq_true] at hnp
      rcases Nat.eq_or_lt_of_le hik with rfl | hlt
      · simpa [Nat.sub_self] using hnp
      · have hrec := ih (i + 1) h (by omega)
        have heq : (a :: t).drop (k - i) = t.drop (k - (i + 1)) := by
          have hki : k - i = (k - (i + 1)) + 1 := by omega
          rw [hki]
          simp
        rw [heq]
        exact hrec

lemma py_find_some (hay pat : List Char) (s j : Nat)
    (h : py_find hay pat s = some j) :
    s ≤ j ∧ pat.isPrefixOf (hay.drop j) = true ∧
      ∀ k, s ≤ k → k < j → pat.isPrefixOf (hay.drop k) = false := by
  unfold py_find at h
  obtain ⟨h1, _, h3⟩ := find_sub_from_some _ _ _ _ h
  have hdrop : ∀ k, s ≤ k → (hay.drop s).drop (k - s) = hay.drop k := by
    intro k hk
    rw [List.drop_drop]
    congr 1
    omega
  refine ⟨h1, ?_, ?_⟩
  · rw [← hdrop j h1]
    exact h3
  · intro k hk1 hk2
    rw [← hdrop k hk1]
    exact find_sub_from_min _ _ _ _ _ h hk1 hk2

lemma py_find_none (hay pat : List Char) (s : Nat)
    (h : py_find hay pat s = none) :
    ∀ k, s ≤ k → pat.isPrefixOf (hay.drop k) = false := by
  unfold py_find at h
  intro k hk
  have hdrop : (hay.drop s).drop (k - s) = hay.drop k := by
    rw [List.drop_drop]
    congr 1
    omega
  rw [← hdrop]
  exact find_sub_from_none _ _ _ _ h hk

lemma py_find_bound (hay pat : List Char) (s j : Nat) (hpat : pat ≠ [])
    (h : py_find hay pat s = some j) : s ≤ j ∧ j < hay.length := by
  obtain ⟨h1, h2, _⟩ := py_find_some hay pat s j h
  refine ⟨h1, ?_⟩
  by_contra hge
  push_neg at hge
  rw [List.drop_eq_nil_of_le hge] at h2
  cases pat with
  | nil => exact hpat rfl
  | cons a t => simp [List.isPrefixOf] at h2

lemma mem_find_occ_fuel (content code : List Char) (hpat : code ≠ []) :
    ∀ (fuel start p : Nat), content.length + 1 - start ≤ fuel →
      (p ∈ find_occ_fuel content code fuel start ↔
        start ≤ p ∧ code.isPrefixOf (content.drop p) = true) := by
  intro fuel
  induction fuel with
  | zero =>
    intro start p hfuel
    simp only [find_occ_fuel, List.not_mem_nil, false_iff]
    rintro ⟨hp1, hp2⟩
    have hdrop : content.drop p = [] := List.drop_eq_nil_of_le (by omega)
    rw [hdrop] at hp2
    cases code with
    | nil => exact hpat rfl
    | cons a t => simp [List.isPrefixOf] at hp2
  | succ fuel ih =>
    intro start p hfuel
    rw [find_occ_fuel]
    cases h : py_find content code start with
    | none =>
      simp only [List.not_mem_nil, false_iff]
      rintro ⟨hp1, hp2⟩
      rw [py_find_none content code start h p hp1] at hp2
      exact absurd hp2 (by simp)
    | some q =>
      obtain ⟨hq1, hq2, hq3⟩ := py_find_some content code start q h
      have hqb := py_find_bound content code start q hpat h
      have ihq := ih (q + 1) p (by omega)
      constructor
      · intro hp
        rcases List.mem_cons.1 hp with rfl | hp'
        · exact ⟨hq1, hq2⟩
        · obtain ⟨hg, hpre⟩ := ihq.1 hp'
          exact ⟨by omega, hpre⟩
      · rintro ⟨hp1, hp2⟩
        by_cases hpq : p = q
        · subst hpq
          exact List.mem_cons_self _ _
        · have hgt : q + 1 ≤ p := by
            by_contra hno
            push_neg at hno
            have hfalse := hq3 p hp1 (by omega)
            rw [hfalse] at hp2
            exact absurd hp2 (by simp)
          exact List.mem_cons_of_mem _ (ihq.2 ⟨hgt, hp2⟩)

lemma mem_find_occurrences (content code : List Char) (hpat : code ≠ [])
    (start p : Nat) :
    p ∈ find_occurrences content code start ↔
      start ≤ p ∧ code.isPrefixOf (content.drop p) = true :=
  mem_find_occ_fuel content code hpat _ start p (le_refl _)

/-- All field codes have the same (3-character) length, so the stable
longest-first sort leaves them in table order. -/
lemma sorted_codes_eq : sorted_codes = fields_map.map Prod.fst := by decide

lemma codes_nonempty : ∀ c ∈ fields_map.map Prod.fst, c.data ≠ [] := by decide

/-- No field code is a proper prefix of another field code: any two codes
in a prefix relationship are equal. -/
lemma codes_no_prefix : ∀ c ∈ fields_map.map Prod.fst,
    ∀ c' ∈ fields_map.map Prod.fst, c.data.isPrefixOf c'.data = true → c = c' := by
  decide

lemma keys_nodup : (fields_map.map Prod.fst).Nodup := by decide

lemma descs_nodup : (fields_map.map Prod.snd).Nodup := by decide

/-- With nodup keys, association lookup of a present key finds its own
entry. -/
lemma assoc_find_eq : ∀ (l : List (String × String)),
    (l.map Prod.fst).Nodup → ∀ (c d : String), (c, d) ∈ l →
    l.find? (fun p => p.1 == c) = some (c, d) := by
  intro l
  induction l with
  | nil => intro _ c d h; simp at h
  | cons q t ih =>
    intro hnodup c d h
    rw [List.map_cons, List.nodup_cons] at hnodup
    rcases List.mem_cons.1 h with rfl | hmem
    · simp [List.find?]
    · have hq : (q.1 == c) = false := by
        rw [beq_eq_false_iff_ne]
        intro hqc
        exact hnodup.1 (hqc ▸ List.mem_map.2 ⟨(c, d), hmem, rfl⟩)
      rw [List.find?_cons, hq]
      exact ih hnodup.2 c d hmem

/-- With nodup descriptions, two entries with the same description have the
same code. -/
lemma assoc_snd_inj : ∀ (l : List (String × String)),
    (l.map Prod.snd).Nodup → ∀ (c c' d : String),
    (c, d) ∈ l → (c', d) ∈ l → c = c' := by
  intro l
  induction l with
  | nil => intro _ c c' d h; simp at h
  | cons q t ih =>
    intro hnodup c c' d h h'
    rw [List.map_cons, List.nodup_cons] at hnodup
    rcases List.mem_cons.1 h with rfl | hmem
    · rcases List.mem_cons.1 h' with heq | hmem'
      · exact (congrArg Prod.fst heq.symm)
      · exact absurd (List.mem_map.2 ⟨(c', d), hmem', rfl⟩) hnodup.1
    · rcases List.mem_cons.1 h' with rfl | hmem'
      · exact absurd (List.mem_map.2 ⟨(c, d), hmem, rfl⟩) hnodup.1
      · exact ih hnodup.2 c c' d hmem hmem'

lemma field_desc_of_mem (c d : String) (h : (c, d) ∈ fields_map) :
    field_desc c = d := by
  unfold field_desc
  rw [assoc_find_eq fields_map keys_nodup c d h]

lemma mem_of_field_desc (c : String) (h : c ∈ fields_map.map Prod.fst) :
    (c, field_desc c) ∈ fields_map := by
  rcases List.mem_map.1 h with ⟨⟨c0, d0⟩, hmem, heq⟩
  have : c0 = c := heq
  subst this
  rw [field_desc_of_mem c0 d0 hmem]
  exact hmem

lemma mem_insert_by_pos (x a : String × Nat) :
    ∀ (l : List (String × Nat)), (a ∈ insert_by_pos x l ↔ a = x ∨ a ∈ l) := by
  intro l
  induction l with
  | nil => simp [insert_by_pos]
  | cons y ys ih =>
    simp only [insert_by_pos]
    split
    · rw [List.mem_cons, ih, List.mem_cons]
      tauto
    · simp [List.mem_cons]

lemma insert_by_pos_perm (x : String × Nat) :
    ∀ (l : List (String × Nat)), (insert_by_pos x l).Perm (x :: l) := by
  intro l
  induction l with
  | nil => simp [insert_by_pos]
  | cons y ys ih =>
    simp only [insert_by_pos]
    split
    · exact (ih.cons y).trans (List.Perm.swap x y ys)
    · exact List.Perm.refl _

lemma sort_by_pos_perm : ∀ (l : List (String × Nat)), (sort_by_pos l).Perm l := by
  intro l
  induction l with
  | nil => simp [sort_by_pos]
  | cons x xs ih =>
    exact (insert_by_pos_perm x (sort_by_pos xs)).trans (ih.cons x)

lemma insert_by_pos_sorted (x : String × Nat) :
    ∀ (l : List (String × Nat)), l.Pairwise (fun a b => a.2 ≤ b.2) →
      (insert_by_pos x l).Pairwise (fun a b => a.2 ≤ b.2) := by
  intro l
  induction l with
  | nil =>
    intro _
    simp [insert_by_pos]
  | cons y ys ih =>
    intro hl
    rcases List.pairwise_cons.1 hl with ⟨hy, hys⟩
    simp only [insert_by_pos]
    split
    · rename_i hlt
      refine List.pairwise_cons.2 ⟨?_, ih hys⟩
      intro b hb
      rcases (mem_insert_by_pos x b ys).1 hb with rfl | hb'
      · omega
      · exact hy b hb'
    · rename_i hge
      refine List.pairwise_cons.2 ⟨?_, hl⟩
      intro b hb
      rcases List.mem_cons.1 hb with rfl | hb'
      · omega
      · have := hy b hb'
        omega

lemma sort_by_pos_sorted : ∀ (l : List (String × Nat)),
    (sort_by_pos l).Pairwise (fun a b => a.2 ≤ b.2) := by
  intro l
  induction l with
  | nil => simp [sort_by_pos]
  | cons x xs ih => exact insert_by_pos_sorted x (sort_by_pos xs) ih

/-- The collection loop records exactly the occurrences of known codes:
(code, position) is recorded iff the code is in the table and occurs at
that position in the field-data region. -/
lemma mem_field_positions (content : List Char) (c : String) (p : Nat) :
    (c, p) ∈ field_positions content ↔
      c ∈ fields_map.map Prod.fst ∧ c.data.isPrefixOf (content.drop p) = true := by
  unfold field_positions
  rw [List.mem_flatten]
  constructor
  · rintro ⟨l, hl, hmem⟩
    rcases List.mem_map.1 hl with ⟨code, hcode, rfl⟩
    rcases List.mem_map.1 hmem with ⟨q, hq, heq⟩
    rw [Prod.mk.injEq] at heq
    obtain ⟨rfl, rfl⟩ := heq
    rw [sorted_codes_eq] at hcode
    have hne : code.data ≠ [] := codes_nonempty code hcode
    have hocc := (mem_find_occurrences content code.data hne 0 q).1 hq
    exact ⟨hcode, hocc.2⟩
  · rintro ⟨hkeys, hpre⟩
    refine ⟨(find_occurrences content c.data 0).map (fun p => (c, p)), ?_, ?_⟩
    · refine List.mem_map.2 ⟨c, ?_, rfl⟩
      rw [sorted_codes_eq]
      exact hkeys
    · exact List.mem_map.2 ⟨p,
        (mem_find_occurrences content c.data (codes_nonempty c hkeys) 0 p).2
          ⟨Nat.zero_le _, hpre⟩, rfl⟩

lemma mem_sorted_positions (content : List Char) (a : String × Nat) :
    a ∈ sorted_positions content ↔ a ∈ field_positions content :=
  (sort_by_pos_perm _).mem_iff

lemma extract_entries_getElem (content : List Char) :
    ∀ (ps : List (String × Nat)) (i : Nat),
      (extract_entries content ps)[i]? = (ps[i]?).map (fun cur =>
        (field_desc cur.1,
         clean_value ((content.take (next_boundary content ps i)).drop
           (cur.2 + cur.1.length)))) := by
  intro ps
  induction ps with
  | nil =>
    intro i
    simp [extract_entries]
  | cons cur rest ih =>
    intro i
    cases i with
    | zero =>
      cases rest with
      | nil => simp [extract_entries, next_boundary]
      | cons nxt r2 => simp [extract_entries, next_boundary]
    | succ n =>
      have hnb : next_boundary content (cur :: rest) (n + 1) = next_boundary content rest n := by
        simp [next_boundary]
      simp only [extract_entries, List.getElem?_cons_succ, hnb]
      exact ih n

lemma extract_entries_length (content : List Char) :
    ∀ (ps : List (String × Nat)), (extract_entries content ps).length = ps.length := by
  intro ps
  induction ps with
  | nil => simp [extract_entries]
  | cons cur rest ih => simp [extract_entries, ih]

lemma dictInsert_ne_nil (d : List (String × String)) (k v : String) :
    dictInsert d k v ≠ [] := by
  cases d with
  | nil => simp [dictInsert]
  | cons p d =>
    simp only [dictInsert]
    split <;> simp

lemma foldl_dictInsert_ne_nil :
    ∀ (es : List (String × String)) (d : List (String × String)), d ≠ [] →
      es.foldl (fun acc e => dictInsert acc e.1 e.2) d ≠ [] := by
  intro es
  induction es with
  | nil =>
    intro d hd
    simpa
  | cons e es ih =>
    intro d hd
    simp only [List.foldl_cons]
    exact ih _ (dictInsert_ne_nil _ _ _)

lemma foldl_dictInsert_of_ne_nil (es : List (String × String)) (hes : es ≠ []) :
    es.foldl (fun acc e => dictInsert acc e.1 e.2) [] ≠ [] := by
  cases es with
  | nil => exact absurd rfl hes
  | cons e t =>
    simp only [List.foldl_cons]
    exact foldl_dictInsert_ne_nil t _ (dictInsert_ne_nil _ _ _)

lemma dictGet_insert (k k' v : String) :
    ∀ (d : List (String × String)),
      dictGet k (dictInsert d k' v) = if k = k' then some v else dictGet k d := by
  intro d
  induction d with
  | nil =>
    by_cases hk : k = k'
    · subst hk
      simp [dictGet, dictInsert, List.find?]
    · have hb : (k' == k) = false := beq_eq_false_iff_ne.2 (fun h => hk h.symm)
      simp [dictGet, dictInsert, List.find?, hb, hk]
  | cons p d ih =>
    simp only [dictInsert]
    by_cases h1 : p.1 = k'
    · rw [if_pos (beq_iff_eq.2 h1)]
      by_cases hk : k = k'
      · subst hk
        have hb : (k == k) = true := beq_iff_eq.2 rfl
        simp [dictGet, List.find?_cons, hb]
      · have hb : (k' == k) = false := beq_eq_false_iff_ne.2 (fun h => hk h.symm)
        have hb2 : (p.1 == k) = false := by rw [h1]; exact hb
        simp [dictGet, List.find?_cons, hb, hb2, hk]
    · rw [if_neg (fun hb => h1 (beq_iff_eq.1 hb))]
      by_cases h2 : p.1 = k
      · have hb : (p.1 == k) = true := beq_iff_eq.2 h2
        have hkk : ¬k = k' := fun he => h1 (by rw [h2, he])
        simp [dictGet, List.find?_cons, hb, hkk]
      · have hb : (p.1 == k) = false := beq_eq_false_iff_ne.2 h2
        have hL : dictGet k (p :: dictInsert d k' v) = dictGet k (dictInsert d k' v) := by
          simp [dictGet, List.find?_cons, hb]
        have hR : dictGet k (p :: d) = dictGet k d := by
          simp [dictGet, List.find?_cons, hb]
        rw [hL, hR]
        exact ih

lemma dictGet_foldl :
    ∀ (entries : List (String × String)) (d : List (String × String)) (k : String),
      dictGet k (entries.foldl (fun acc e => dictInsert acc e.1 e.2) d) =
        match entries.reverse.find? (fun e => e.1 == k) with
        | some e => some e.2
        | none => dictGet k d := by
  intro entries
  induction entries with
  | nil =>
    intro d k
    simp
  | cons e es ih =>
    intro d k
    simp only [List.foldl_cons, List.reverse_cons]
    rw [ih, List.find?_append]
    cases h : es.reverse.find? (fun e' => e'.1 == k) with
    | some e' => simp [Option.or]
    | none =>
      simp only [Option.none_or]
      by_cases hek : e.1 = k
      · have hb : (e.1 == k) = true := beq_iff_eq.2 hek
        have hke : k = e.1 := hek.symm
        simp [List.find?, hb, dictGet_insert, hke]
      · have hb : (e.1 == k) = false := beq_eq_false_iff_ne.2 hek
        have hke : ¬k = e.1 := fun h => hek h.symm
        simp [List.find?, hb, dictGet_insert, hke]

lemma findSome?_dest {α β : Type _} (f : α → Option β) (b : β) :
    ∀ (l : List α), l.findSome? f = some b → ∃ a ∈ l, f a = some b := by
  intro l
  induction l with
  | nil =>
    intro h
    simp at h
  | cons x t ih =>
    intro h
    rw [List.findSome?_cons] at h
    cases hx : f x with
    | some c =>
      rw [hx] at h
      exact ⟨x, List.mem_cons_self _ _, hx.trans h⟩
    | none =>
      rw [hx] at h
      obtain ⟨a, ha, hfa⟩ := ih h
      exact ⟨a, List.mem_cons_of_mem _ ha, hfa⟩

lemma reverse_find?_of_last {α : Type _} (p : α → Bool) :
    ∀ (l : List α) (i : Nat) (a : α),
      l[i]? = some a → p a = true →
      (∀ j b, i < j → l[j]? = some b → p b = false) →
      l.reverse.find? p = some a := by
  intro l
  induction l with
  | nil =>
    intro i a ha _ _
    simp at ha
  | cons x t ih =>
    intro i a ha hp hlast
    rw [List.reverse_cons, List.find?_append]
    cases i with
    | zero =>
      simp only [List.getElem?_cons_zero] at ha
      injection ha with ha
      subst ha
      have hnone : t.reverse.find? p = none := by
        rw [List.find?_eq_none]
        intro b hb hpb
        rw [List.mem_reverse] at hb
        obtain ⟨j, hj⟩ := List.mem_iff_getElem?.1 hb
        have := hlast (j + 1) b (Nat.succ_pos j) (by simpa using hj)
        rw [this] at hpb
        exact absurd hpb (by simp)
      rw [hnone, Option.none_or]
      simp [List.find?, hp]
    | succ n =>
      simp only [List.getElem?_cons_succ] at ha
      have hlast' : ∀ j b, n < j → t[j]? = some b → p b = false := fun j b hj hjb =>
        hlast (j + 1) b (by omega) (by simpa using hjb)
      rw [ih n a ha hp hlast']
      rfl

/-- Unfolding of the parser in the success path: the region is found and at
least one field position exists, so the result is the dict built by the
extraction loop. -/
lemma parse_aamva_chars_success (data_str content : List Char)
    (hmain : main_data_content data_str = some content)
    (hfp : field_positions content ≠ []) :
    parse_aamva_chars data_str =
      (extract_entries content (sort_by_pos (field_positions content))).foldl
        (fun d e => dictInsert d e.1 e.2) [] := by
  have h1 : (field_positions content).isEmpty = false := by
    cases h : field_positions content with
    | nil => exact absurd h hfp
    | cons a l => rfl
  have hlen : (extract_entries content (sort_by_pos (field_positions content))).length =
      (field_positions content).length := by
    rw [extract_entries_length, (sort_by_pos_perm _).length_eq]
  have hes : extract_entries content (sort_by_pos (field_positions content)) ≠ [] := by
    intro he
    rw [he] at hlen
    cases h : field_positions content with
    | nil => exact absurd h hfp
    | cons a l =>
      rw [h] at hlen
      simp at hlen
  have h2 : ((extract_entries content (sort_by_pos (field_positions content))).foldl
      (fun d e => dictInsert d e.1 e.2) []).isEmpty = false := by
    cases h : (extract_entries content (sort_by_pos (field_positions content))).foldl
        (fun d e => dictInsert d e.1 e.2) [] with
    | nil => exact absurd h (foldl_dictInsert_of_ne_nil _ hes)
    | cons a l => rfl
  unfold parse_aamva_chars
  rw [hmain]
  dsimp only
  rw [h1, h2]
  simp

lemma sorted_positions_def (content : List Char) :
    sort_by_pos (field_positions content) = sorted_positions content := rfl

/-- Claim C2: for every payload whose field-data region is found, the
parser records the position of every occurrence of every known field code
in the region (first conjunct), sorts the (code, position) records by
position ascending (second conjunct), and extracts each field's value as
the text from just after its own code up to the next record's start
position — or the end of the region for the last record — with
LF/CR removed and surrounding whitespace stripped (third conjunct); the
synthetic payload with region "DAQ123\x0aDCSTEST\x0a" yields exactly
License No. → "123" and Last Name → "TEST", and the adjacent-codes region
"DAQDCSTEST" yields License No. → "" (present, not omitted) and
Last Name → "TEST". -/
theorem parser_positional_slicing :
    (∀ (content : List Char) (c : String) (p : Nat),
      (c, p) ∈ field_positions content ↔
        c ∈ fields_map.map Prod.fst ∧ c.data.isPrefixOf (content.drop p) = true) ∧
    (∀ content : List Char,
      (sorted_positions content).Perm (field_positions content) ∧
      (sorted_positions content).Pairwise (fun a b => a.2 ≤ b.2)) ∧
    (∀ (content : List Char) (ps : List (String × Nat)) (i : Nat),
      (extract_entries content ps)[i]? = (ps[i]?).map (fun cur =>
        (field_desc cur.1,
         clean_value ((content.take (next_boundary content ps i)).drop
           (cur.2 + cur.1.length))))) ∧
    parse_aamva_str "DLZDAQ123\x0aDCSTEST\x0a" =
      [("驾照/证件号码 (License No.)", "123"), ("姓氏 (Last Name)", "TEST")] ∧
    parse_aamva_str "DLZDAQDCSTEST" =
      [("驾照/证件号码 (License No.)", ""), ("姓氏 (Last Name)", "TEST")] := by
  refine ⟨mem_field_positions, ?_, extract_entries_getElem, by decide, by decide⟩
  intro content
  exact ⟨sort_by_pos_perm _, sort_by_pos_sorted _⟩

/-- Claim C8: the field-code table is scanned longest-code-first
(`sorted_codes` is length-descending and a permutation of the table keys),
and no extra field boundary is created at the occurrence of a code by a
shorter known code that is its prefix: two recorded codes at the same
position in a prefix relationship are equal (in this table no code is a
proper prefix of another). -/
theorem parser_longest_code_first (content : List Char) (c c' : String) (p : Nat)
    (hc : (c, p) ∈ field_positions content)
    (hc' : (c', p) ∈ field_positions content)
    (hpre : c.data.isPrefixOf c'.data = true) :
    c = c' ∧
    sorted_codes.Pairwise (fun a b => b.length ≤ a.length) ∧
    sorted_codes.Perm (fields_map.map Prod.fst) := by
  refine ⟨?_, by decide, sorted_codes_eq ▸ List.Perm.refl _⟩
  have h1 := (mem_field_positions content c p).1 hc
  have h2 := (mem_field_positions content c' p).1 hc'
  exact codes_no_prefix c h1.1 c' h2.1 hpre

/-- Witness for C8: instantiated at the region "DAQ1" with the recorded
occurrence of "DAQ" at position 0. -/
theorem parser_longest_code_first_witness :
    (("DAQ" : String) = "DAQ") ∧
    sorted_codes.Pairwise (fun a b => b.length ≤ a.length) ∧
    sorted_codes.Perm (fields_map.map Prod.fst) :=
  parser_longest_code_first "DAQ1".data "DAQ" "DAQ" 0 (by decide) (by decide) (by decide)

/-- Counterexample to claim C5: the parser does not take "the first segment
containing DL or ID".  In the payload "DL\x1eIDZDAQ5" the first segment
containing the marker is "DL", which contains no 'Z' — per the claim the
parse must fail with a structural error — yet the code skips it, accepts
the second segment "IDZDAQ5", and returns a successful field mapping. -/
theorem parser_first_segment_counterexample :
    (splitSep '\x1e' "DL\x1eIDZDAQ5".data).find?
        (fun seg => (py_find seg "DL".data 0).isSome ||
          (py_find seg "ID".data 0).isSome) = some "DL".data ∧
    py_find "DL".data ['Z'] 0 = none ∧
    parse_aamva_str "DL\x1eIDZDAQ5" = [("驾照/证件号码 (License No.)", "5")] :=
  ⟨by decide, by decide, by decide⟩

/-- Amended claim C5: the parser splits the Latin-1-decoded text on the
record separator and takes the first segment that both contains "DL" or
"ID" and contains 'Z' at a non-final position, the field-data region being
the text strictly after that segment's first 'Z'; if no segment qualifies
it fails with the structural error, if the region is found but zero known
field codes occur in it it fails with the distinct extraction error, and in
every failure case the returned dict is exactly the singleton error entry —
never a partial field mapping. -/
theorem parser_error_taxonomy (s : String) :
    ((∀ seg ∈ splitSep '\x1e' s.data, segment_region seg = none) →
      parse_aamva_str s = [("Error", structural_error_msg)]) ∧
    (∀ content : List Char, main_data_content s.data = some content →
      field_positions content = [] →
      parse_aamva_str s = [("Error", extraction_error_msg)]) ∧
    (∀ content : List Char, main_data_content s.data = some content →
      ∃ seg ∈ splitSep '\x1e' s.data, ∃ z_pos : Nat,
        ((py_find seg "DL".data 0).isSome || (py_find seg "ID".data 0).isSome) = true ∧
        py_find seg ['Z'] 0 = some z_pos ∧ z_pos + 1 < seg.length ∧
        content = seg.drop (z_pos + 1)) ∧
    structural_error_msg ≠ extraction_error_msg := by
  refine ⟨?_, ?_, ?_, by decide⟩
  · intro hall
    have hmain : main_data_content s.data = none := by
      unfold main_data_content
      exact List.findSome?_eq_none_iff.mpr hall
    unfold parse_aamva_str parse_aamva_chars
    rw [hmain]
  · intro content hmain hfp
    unfold parse_aamva_str parse_aamva_chars
    rw [hmain]
    dsimp only
    have h1 : (field_positions content).isEmpty = true := by
      rw [hfp]
      rfl
    rw [h1]
    simp
  · intro content hmain
    unfold main_data_content at hmain
    obtain ⟨seg, hseg, hregion⟩ := findSome?_dest _ _ _ hmain
    refine ⟨seg, hseg, ?_⟩
    unfold segment_region at hregion
    dsimp only at hregion
    split at hregion
    · rename_i hcond
      cases hz : py_find seg ['Z'] 0 with
      | none =>
        rw [hz] at hregion
        simp at hregion
      | some z =>
        rw [hz] at hregion
        simp only [] at hregion
        split at hregion
        · rename_i hlt
          injection hregion with hregion
          exact ⟨z, hcond, rfl, hlt, hregion.symm⟩
        · simp at hregion
    · simp at hregion

/-- Witness for the amended C5: a payload with no usable segment yields the
structural error, and one whose region contains no known code yields the
extraction error. -/
theorem parser_error_taxonomy_witness :
    parse_aamva_str "HELLO" = [("Error", structural_error_msg)] ∧
    parse_aamva_str "DLZ@@@" = [("Error", extraction_error_msg)] :=
  ⟨(parser_error_taxonomy "HELLO").1 (by decide),
   (parser_error_taxonomy "DLZ@@@").2.1 "@@@".data (by decide) (by decide)⟩

/-- Claim C10: when a known field code occurs at several positions in the
field-data region, the returned record maps that code's description to the
value extracted for its last (greatest-position) occurrence — earlier
occurrences' values are overwritten in the dict — while every occurrence of
the code is still recorded as a slice boundary.  Stated for the last
occurrence at sorted index `i`: the lookup of the description equals the
`i`-th extracted entry's value, every occurrence of the code has position
at most that occurrence's position, and every position where the code
occurs is present in the sorted record list. -/
theorem parser_last_occurrence_wins (s : String) (content : List Char)
    (c d : String) (i : Nat) (x : String × Nat)
    (hmain : main_data_content s.data = some content)
    (hcd : (c, d) ∈ fields_map)
    (hx : (sorted_positions content)[i]? = some x)
    (hxc : x.1 = c)
    (hlast : ∀ (j : Nat) (y : String × Nat), i < j →
      (sorted_positions content)[j]? = some y → y.1 ≠ c) :
    dictGet d (parse_aamva_str s) =
      ((extract_entries content (sorted_positions content))[i]?).map Prod.snd ∧
    (∀ (j : Nat) (y : String × Nat),
      (sorted_positions content)[j]? = some y → y.1 = c → y.2 ≤ x.2) ∧
    (∀ p : Nat, c.data.isPrefixOf (content.drop p) = true →
      (c, p) ∈ sorted_positions content) := by
  have hx_mem : x ∈ sorted_positions content := by
    rw [List.mem_iff_getElem?]
    exact ⟨i, hx⟩
  have hfp_ne : field_positions content ≠ [] := by
    intro h
    have hmem := (mem_sorted_positions content x).1 hx_mem
    rw [h] at hmem
    simp at hmem
  have hparse := parse_aamva_chars_success s.data content hmain hfp_ne
  rw [sorted_positions_def] at hparse
  have hckeys : c ∈ fields_map.map Prod.fst := List.mem_map.2 ⟨(c, d), hcd, rfl⟩
  have hdesc_c : field_desc c = d := field_desc_of_mem c d hcd
  have hentry : (extract_entries content (sorted_positions content))[i]? =
      some (field_desc x.1,
        clean_value ((content.take (next_boundary content (sorted_positions content) i)).drop
          (x.2 + x.1.length))) := by
    rw [extract_entries_getElem, hx]
    rfl
  refine ⟨?_, ?_, ?_⟩
  · show dictGet d (parse_aamva_chars s.data) = _
    rw [hparse, dictGet_foldl]
    have hfind : (extract_entries content (sorted_positions content)).reverse.find?
        (fun e => e.1 == d) =
        some (field_desc x.1,
          clean_value ((content.take (next_boundary content (sorted_positions content) i)).drop
            (x.2 + x.1.length))) := by
      apply reverse_find?_of_last _ _ i _ hentry
      · simp [hxc, hdesc_c]
      · intro j b hj hjb
        rw [extract_entries_getElem] at hjb
        cases hy : (sorted_positions content)[j]? with
        | none =>
          rw [hy] at hjb
          simp at hjb
        | some y =>
          rw [hy] at hjb
          obtain ⟨y1, y2⟩ := y
          simp only [Option.map_some'] at hjb
          injection hjb with hjb
          subst hjb
          have hyc : y1 ≠ c := hlast j (y1, y2) hj hy
          have hykeys : y1 ∈ fields_map.map Prod.fst := by
            have hymem : (y1, y2) ∈ sorted_positions content := by
              rw [List.mem_iff_getElem?]
              exact ⟨j, hy⟩
            exact ((mem_field_positions content y1 y2).1
              ((mem_sorted_positions content (y1, y2)).1 hymem)).1
          have hne : field_desc y1 ≠ d := by
            intro hde
            have hy_pair : (y1, field_desc y1) ∈ fields_map := mem_of_field_desc y1 hykeys
            rw [hde] at hy_pair
            exact hyc (assoc_snd_inj fields_map descs_nodup y1 c d hy_pair hcd)
          simpa [beq_eq_false_iff_ne] using hne
    rw [hfind, hentry]
    rfl
  · intro j y hjy hyc
    by_cases hij : j ≤ i
    · rcases Nat.lt_or_ge j i with hlt | hge
      · have hsorted := sort_by_pos_sorted (field_positions content)
        rw [sorted_positions_def] at hsorted
        rw [List.pairwise_iff_get] at hsorted
        obtain ⟨hjlen, hjget⟩ := List.getElem?_eq_some.1 hjy
        obtain ⟨hilen, higet⟩ := List.getElem?_eq_some.1 hx
        have hrel := hsorted ⟨j, hjlen⟩ ⟨i, hilen⟩ (by simpa using hlt)
        rw [List.get_eq_getElem, List.get_eq_getElem] at hrel
        simp only [hjget, higet] at hrel
        exact hrel
      · have hj_eq : j = i := by omega
        subst hj_eq
        rw [hx] at hjy
        injection hjy with hjy
        subst hjy
        exact le_refl _
    · exfalso
      push_neg at hij
      exact hlast j y hij hjy hyc
  · intro p hpre
    rw [mem_sorted_positions]
    exact (mem_field_positions content c p).2 ⟨hckeys, hpre⟩

/-- Witness for C10: in "DLZDCSXDAQ1DAQ2" the code DAQ occurs at region
positions 4 and 8; the record maps License No. to "2", the value of the
last occurrence, while the earlier occurrence still terminated the DCS
value ("X"). -/
theorem parser_last_occurrence_wins_witness :
    dictGet "驾照/证件号码 (License No.)" (parse_aamva_str "DLZDCSXDAQ1DAQ2") = some "2" ∧
    parse_aamva_str "DLZDCSXDAQ1DAQ2" =
      [("姓氏 (Last Name)", "X"), ("驾照/证件号码 (License No.)", "2")] := by
  have h := parser_last_occurrence_wins "DLZDCSXDAQ1DAQ2" "DCSXDAQ1DAQ2".data
    "DAQ" "驾照/证件号码 (License No.)" 2 ("DAQ", 8)
    (by decide) (by decide) (by decide) (by decide)
    (by
      intro j y hj hy
      have hlen : (sorted_positions "DCSXDAQ1DAQ2".data).length = 3 := by decide
      rw [List.getElem?_eq_none (by omega)] at hy
      exact absurd hy (by simp))
  refine ⟨?_, by decide⟩
  rw [h.1]
  decide
